import Mathlib

/-!
Verification of the `env-interpolation` library: a `${VAR}`-style placeholder
substitution engine over strings, arrays and objects.

Strings are modelled as `List Char`.  The variable map is a function
`List Char → Option (List Char)`.  The substitution engine (`replace`) is a
bounded multi-pass loop driven by a brace-balanced scanner
(`findNextPlaceholder`), a parser (`parsePlaceholder`), a name validator
(`isValidVarName`) and backslash-escape handling, mirroring the source
line by line.  The structural traverser (`traverseFuel`) is modelled over an
explicit heap of containers so that object identity, input mutation and
cyclic object graphs can be expressed.
-/

namespace EnvInterpolation

/-- The character `$` (written via its code point to keep literals uniform). -/
def dollarC : Char := Char.ofNat 36

/-- The left curly brace character. -/
def lbraceC : Char := Char.ofNat 123

/-- The right curly brace character. -/
def rbraceC : Char := Char.ofNat 125

/-- The colon character. -/
def colonC : Char := Char.ofNat 58

/-- The backslash character. -/
def bslashC : Char := Char.ofNat 92

/-- The double-quote character. -/
def dquoteC : Char := Char.ofNat 34

/-- The single-quote character. -/
def squoteC : Char := Char.ofNat 39

/-- The underscore character. -/
def underscoreC : Char := Char.ofNat 95

/-- A variable map: `Record<string, string | undefined>`. -/
def Vars : Type := List Char → Option (List Char)

/-- The empty variable map (`{}`). -/
def emptyVars : Vars := fun _ => none

/--
`unquote` from the source: removes wrapping quotes from a string if they
match (both single or both double); otherwise returns the string unchanged.
`s.slice(1, -1)` is `(s.drop 1).dropLast`.
-/
def unquote (s : List Char) : List Char :=
  if (s.head? = some dquoteC ∧ s.getLast? = some dquoteC) ∨
      (s.head? = some squoteC ∧ s.getLast? = some squoteC) then
    (s.drop 1).dropLast
  else
    s

/--
The scan for the first occurrence of `${` in `findNextPlaceholder`:
`scanStart l i` inspects the suffix `l` of the string whose first character
sits at absolute index `i`, and returns the absolute index of the first
`$`-immediately-followed-by-`{` pair (the JS loop runs while `i < length - 1`,
i.e. while two characters remain).
-/
def scanStart : List Char → Nat → Option Nat
  | c1 :: c2 :: rest, i =>
      if c1 = dollarC ∧ c2 = lbraceC then some i
      else scanStart (c2 :: rest) (i + 1)
  | _, _ => none

/--
The brace-counting scan of `findNextPlaceholder`: `scanClose l i braceCount`
inspects the suffix `l` starting at absolute index `i`; `{` increments the
count, `}` decrements it (the JS decrements and then compares with `0`,
which for a count that is always `≥ 1` is the `braceCount = 1` test below),
and the index of the brace that brings the count to zero is returned.
-/
def scanClose : List Char → Nat → Nat → Option Nat
  | [], _, _ => none
  | ch :: rest, i, braceCount =>
      if ch = lbraceC then scanClose rest (i + 1) (braceCount + 1)
      else if ch = rbraceC then
        if braceCount = 1 then some i
        else scanClose rest (i + 1) (braceCount - 1)
      else scanClose rest (i + 1) braceCount

/-- The metadata returned by `findNextPlaceholder` (the field `end` of the
source is called `endIdx` since `end` is a Lean keyword). -/
structure PlaceholderMatch where
  start : Nat
  endIdx : Nat
  inner : List Char
  full : List Char
deriving DecidableEq

/--
`findNextPlaceholder` from the source: find the next `${`, then scan forward
counting braces to locate the matching closing `}`; `inner` is the substring
without the wrapping `${` and `}`, `full` the verbatim span.  Unbalanced
braces are reported as "no further placeholder".
-/
def findNextPlaceholder (str : List Char) (fromIndex : Nat) :
    Option PlaceholderMatch :=
  match scanStart (str.drop fromIndex) fromIndex with
  | none => none
  | some start =>
    match scanClose (str.drop (start + 2)) (start + 2) 1 with
    | none => none
    | some i =>
        some { start := start, endIdx := i,
               inner := (str.take i).drop (start + 2),
               full := (str.take (i + 1)).drop start }

/-- `inner.indexOf(":")` on a list of characters. -/
def indexOfColon : List Char → Option Nat
  | [] => none
  | c :: rest =>
      if c = colonC then some 0
      else (indexOfColon rest).map (fun k => k + 1)

/--
`parsePlaceholder` from the source: split the inner content at the first `:`
into variable key and optional default value.
-/
def parsePlaceholder (inner : List Char) : List Char × Option (List Char) :=
  match indexOfColon inner with
  | none => (inner, none)
  | some idx => (inner.take idx, some (inner.drop (idx + 1)))

/-- `isValidVarName` from the source: the regex `^[A-Z0-9_]+$/i`, i.e. the
key is non-empty and every character is an ASCII letter, digit or
underscore. -/
def isValidVarName (key : List Char) : Bool :=
  !key.isEmpty && key.all (fun c => c.isAlpha || c.isDigit || c = underscoreC)

/-- The count of consecutive backslashes immediately preceding index
`start` in `result` (the source walks `cursor` down from `start - 1`). -/
def countBackslashes (result : List Char) (start : Nat) : Nat :=
  ((result.take start).reverse.takeWhile (fun c => c = bslashC)).length

/--
One pass of the substitution loop of `replace` (the inner `while (true)`
loop).  `fuel` is a structural-recursion bound; each loop iteration strictly
shrinks `result.length - searchFrom`, so `result.length + 1` units of fuel
always suffice.  The three branches mirror the source: escape branch
(odd number of preceding backslashes with escaping on), invalid-name branch,
and the resolution branch (value, then non-empty default, then leave as-is).
-/
def processPass (vars : Vars) (escape : Bool) :
    Nat → List Char → Nat → Bool → List Char × Bool
  | 0, result, _, anyChange => (result, anyChange)
  | fuel + 1, result, searchFrom, anyChange =>
    match findNextPlaceholder result searchFrom with
    | none => (result, anyChange)
    | some m =>
      let start := m.start
      let endIdx := m.endIdx
      let full := m.full
      let parsed := parsePlaceholder m.inner
      let key := parsed.1
      let defaultValue := parsed.2
      let backslashes := countBackslashes result start
      if escape = true ∧ 0 < backslashes ∧ backslashes % 2 = 1 then
        -- Odd number of preceding backslashes escapes the placeholder.
        let remainingBackslashes := backslashes / 2
        let pre := result.take (start - backslashes) ++
          List.replicate remainingBackslashes bslashC
        let literal := (result.take (endIdx + 1)).drop start
        let result2 := pre ++ literal ++ result.drop (endIdx + 1)
        processPass vars escape fuel result2
          (pre.length + literal.length) anyChange
      else if isValidVarName key = false then
        -- Leave placeholder literal; normalize backslashes (remove one if odd).
        let removeOne : Nat :=
          if escape = true ∧ backslashes % 2 = 1 then 1 else 0
        let result2 := result.take (start - backslashes) ++
          List.replicate (backslashes - removeOne) bslashC ++
          dollarC :: lbraceC :: result.drop (start + 2)
        processPass vars escape fuel result2
          (start - backslashes + (backslashes - removeOne) + 2) true
      else
        let value := vars key
        let rp : List Char × Bool :=
          match value with
          | some v => (v, true)
          | none =>
            match defaultValue with
            | some d => if d ≠ [] then (unquote d, true) else (full, anyChange)
            | none => (full, anyChange)
        let replacement := rp.1
        let finalBackslashes :=
          if escape = true ∧ 0 < backslashes then backslashes / 2
          else backslashes
        let pre := result.take (start - backslashes) ++
          List.replicate finalBackslashes bslashC
        let result2 := pre ++ replacement ++ result.drop (endIdx + 1)
        processPass vars escape fuel result2
          (pre.length + replacement.length) rp.2

/-- A single whole-string pass over `result`, with always-sufficient fuel. -/
def onePass (vars : Vars) (escape : Bool) (result : List Char) :
    List Char × Bool :=
  processPass vars escape (result.length + 1) result 0 false

/--
The outer `do … while (result !== previous)` loop of `replace`.
`remaining` is the number of passes the ceiling still allows
(`maxPasses - passes`); when it reaches `0` the `passes > maxPasses` break
fires before the pass body runs.  After a pass: break when the pass made no
change, then break when the pass left the string equal to `previous`.
-/
def replaceLoop (vars : Vars) (escape : Bool) :
    Nat → List Char → List Char
  | 0, result => result
  | remaining + 1, result =>
    let p := onePass vars escape result
    if p.2 = false then p.1
    else if p.1 = result then p.1
    else replaceLoop vars escape remaining p.1

/-- The source constant `MAX_INTERPOLATION_PASSES`. -/
def MAX_INTERPOLATION_PASSES : Nat := 10

/-- `replace(content, vars, options)` from the source, with the
options `escape` (source default `true`) and `maxPasses` (source default
`10`) passed explicitly. -/
def replace (content : List Char) (vars : Vars) (escape : Bool)
    (maxPasses : Nat) : List Char :=
  replaceLoop vars escape maxPasses content

/-- `k` further passes applied to a string (used to state idempotence at a
fixed point). -/
def passIter (vars : Vars) (escape : Bool) : Nat → List Char → List Char
  | 0, s => s
  | k + 1, s => passIter vars escape k (onePass vars escape s).1

/-!
The structural traverser.

JavaScript values are modelled with an explicit heap so that container
identity, mutation and cycles are expressible: a `JSValue` is a string, an
opaque non-string scalar (number, boolean, `null`, …), or a reference to a
container stored in the heap; a container is an array of values or a plain
object (a list of key/value fields).  The heap is a list of containers
addressed by position; input containers occupy the initial segment and the
traverser allocates output containers by appending.
-/

/-- A JavaScript value: string, opaque scalar, or container reference. -/
inductive JSValue where
  | str : List Char → JSValue
  | scalar : JSValue
  | ref : Nat → JSValue
deriving DecidableEq

/-- A container: an array of values, or a plain object's own fields. -/
inductive Container where
  | arr : List JSValue → Container
  | obj : List (List Char × JSValue) → Container
deriving DecidableEq

/-- A heap of containers, addressed by list position. -/
abbrev Heap : Type := List Container

/-- Traversal state: the (growing) heap and the `seen` map of the source,
relating each already-visited input container to its output container. -/
structure TState where
  heap : List Container
  seen : List (Nat × Nat)
deriving DecidableEq

/-- `seen.get(a)`: lookup of an input address in the seen map. -/
def lookupSeen : List (Nat × Nat) → Nat → Option Nat
  | [], _ => none
  | p :: rest, a => if p.1 = a then some p.2 else lookupSeen rest a

/-- Traversal of the items of an array, left to right, threading the state
(the source's `for (const item of value) out.push(traverse(item, …))`). -/
def traverseChildren (rec : JSValue → TState → Option (JSValue × TState)) :
    List JSValue → TState → Option (List JSValue × TState)
  | [], st => some ([], st)
  | v :: rest, st =>
    match rec v st with
    | none => none
    | some (v2, st2) =>
      match traverseChildren rec rest st2 with
      | none => none
      | some (vs, st3) => some (v2 :: vs, st3)

/-- Traversal of the own fields of an object, in key order, threading the
state (the source's `for (const k of Object.keys(value)) …`). -/
def traverseFields (rec : JSValue → TState → Option (JSValue × TState)) :
    List (List Char × JSValue) → TState → Option (List (List Char × JSValue) × TState)
  | [], st => some ([], st)
  | f :: rest, st =>
    match rec f.2 st with
    | none => none
    | some (v2, st2) =>
      match traverseFields rec rest st2 with
      | none => none
      | some (fs, st3) => some ((f.1, v2) :: fs, st3)

/--
One level of `traverse` from the source: strings go through the replacer;
a reference already in `seen` returns the previously-built output container;
otherwise a fresh output container is allocated, registered in `seen`
*before* the children are traversed (this is the cycle guard), filled with
the traversed children, and returned; any other scalar is returned
unchanged.  Dangling references (absent from the heap) cannot occur for
well-formed inputs and are mapped to `none`.
-/
def traverseStep (replacer : List Char → List Char)
    (rec : JSValue → TState → Option (JSValue × TState)) :
    JSValue → TState → Option (JSValue × TState)
  | .str s, st => some (.str (replacer s), st)
  | .scalar, st => some (.scalar, st)
  | .ref a, st =>
    match lookupSeen st.seen a with
    | some o => some (.ref o, st)
    | none =>
      match st.heap[a]? with
      | none => none
      | some (.arr items) =>
        let o := st.heap.length
        let st1 : TState := ⟨st.heap ++ [Container.arr []], (a, o) :: st.seen⟩
        match traverseChildren rec items st1 with
        | none => none
        | some (outs, st2) =>
            some (.ref o, ⟨st2.heap.set o (Container.arr outs), st2.seen⟩)
      | some (.obj fields) =>
        let o := st.heap.length
        let st1 : TState := ⟨st.heap ++ [Container.obj []], (a, o) :: st.seen⟩
        match traverseFields rec fields st1 with
        | none => none
        | some (outs, st2) =>
            some (.ref o, ⟨st2.heap.set o (Container.obj outs), st2.seen⟩)

/-- The recursive `traverse`, with a fuel bound on the recursion depth.
Entering an unvisited container consumes one unit; since every such entry
adds a fresh input address to `seen`, a depth of (number of input
containers + 1) is never exceeded, so `heap.length + 1` units suffice. -/
def traverseFuel (replacer : List Char → List Char) :
    Nat → JSValue → TState → Option (JSValue × TState)
  | 0, _, _ => none
  | fuel + 1, v, st => traverseStep replacer (traverseFuel replacer fuel) v st

/-- `interpolate(content, variables, options)` over a heap of containers:
every string leaf is substituted with `replace`, containers are deep-copied
with cycle detection. -/
def interpolate (content : JSValue) (heap : Heap) (vars : Vars)
    (escape : Bool) (maxPasses : Nat) : Option (JSValue × TState) :=
  traverseFuel (fun s => replace s vars escape maxPasses)
    (List.length heap + 1) content ⟨heap, []⟩

/-!
Specification-side vocabulary.

The definitions below are used only to *state* properties: the expected
shape of a copied value, well-formedness of an input heap, and the nested
default chains of the pass-limit claim.
-/

/-- The expected image of a leaf value under traversal: strings through the
replacer, scalars unchanged, references renamed along the seen map. -/
def mapValue (replacer : List Char → List Char) (seen : List (Nat × Nat)) :
    JSValue → JSValue
  | .str s => .str (replacer s)
  | .scalar => .scalar
  | .ref a =>
    match lookupSeen seen a with
    | some o => .ref o
    | none => .ref a

/-- The expected image of a container under traversal. -/
def mapContainer (replacer : List Char → List Char)
    (seen : List (Nat × Nat)) : Container → Container
  | .arr items => .arr (items.map (mapValue replacer seen))
  | .obj fields => .obj (fields.map (fun f => (f.1, mapValue replacer seen f.2)))

/-- A value's references all point below `n` (into the input heap). -/
def valRefOk (n : Nat) : JSValue → Prop
  | .ref a => a < n
  | _ => True

/-- All values held by a container point below `n`. -/
def contOk (n : Nat) : Container → Prop
  | .arr items => ∀ v ∈ items, valRefOk n v
  | .obj fields => ∀ f ∈ fields, valRefOk n f.2

/-- A closed input heap: every stored reference points back into the heap. -/
def heapClosed (heap : Heap) : Prop :=
  ∀ c ∈ heap, contOk (List.length heap) c

/-- A plain character for nested-default chains: none of the characters the
scanner, parser, unquoter or escape handling react to. -/
abbrev plainChar (c : Char) : Prop :=
  c ≠ dollarC ∧ c ≠ lbraceC ∧ c ≠ rbraceC ∧ c ≠ bslashC ∧
    c ≠ dquoteC ∧ c ≠ squoteC

/-- The chain of nested default placeholders
`${n₁:${n₂:…${n_k:d}…}}` of the pass-limit claim. -/
def chainStr : List (List Char) → List Char → List Char
  | [], d => d
  | n :: rest, d =>
      dollarC :: lbraceC :: (n ++ colonC :: (chainStr rest d ++ [rbraceC]))

/-!
Basic lemmas about the scanner and the pass machinery.
-/

theorem scanStart_ge {l : List Char} {i j : Nat}
    (h : scanStart l i = some j) : i ≤ j := by
  induction l generalizing i with
  | nil => simp [scanStart] at h
  | cons c1 rest ih =>
    cases rest with
    | nil => simp [scanStart] at h
    | cons c2 rest2 =>
      rw [scanStart] at h
      split at h
      · cases h
        exact Nat.le_refl _
      · exact Nat.le_of_succ_le (ih h)

theorem scanStart_found {l : List Char} {i j : Nat}
    (h : scanStart l i = some j) :
    l.drop (j - i) = dollarC :: lbraceC :: l.drop (j - i + 2) := by
  induction l generalizing i with
  | nil => simp [scanStart] at h
  | cons c1 rest ih =>
    cases rest with
    | nil => simp [scanStart] at h
    | cons c2 rest2 =>
      rw [scanStart] at h
      split at h
      next heq =>
        cases h
        simp [Nat.sub_self, heq.1, heq.2]
      next =>
        have hij : i + 1 ≤ j := scanStart_ge h
        have := ih h
        have h1 : j - i = (j - (i + 1)) + 1 := by omega
        rw [h1]
        rw [show j - (i + 1) + 1 + 2 = (j - (i + 1) + 2) + 1 from by omega]
        simp only [List.drop_succ_cons]
        exact this

theorem scanClose_ge {l : List Char} {i bc j : Nat}
    (h : scanClose l i bc = some j) : i ≤ j := by
  induction l generalizing i bc with
  | nil => simp [scanClose] at h
  | cons c rest ih =>
    rw [scanClose] at h
    split at h
    · exact Nat.le_of_succ_le (ih h)
    · split at h
      · split at h
        · cases h
          exact Nat.le_refl _
        · exact Nat.le_of_succ_le (ih h)
      · exact Nat.le_of_succ_le (ih h)

theorem scanClose_lt_length {l : List Char} {i bc j : Nat}
    (h : scanClose l i bc = some j) : j - i < l.length := by
  induction l generalizing i bc with
  | nil => simp [scanClose] at h
  | cons c rest ih =>
    rw [scanClose] at h
    split at h
    · have h1 : i + 1 ≤ j := scanClose_ge h
      have := ih h
      simp only [List.length_cons]
      omega
    · split at h
      · split at h
        · cases h
          simp
        · have h1 : i + 1 ≤ j := scanClose_ge h
          have := ih h
          simp only [List.length_cons]
          omega
      · have h1 : i + 1 ≤ j := scanClose_ge h
        have := ih h
        simp only [List.length_cons]
        omega

/-- Inversion of a successful `findNextPlaceholder`: the components of the
match, the position of the `${`, and the bounds of the span. -/
theorem findNextPlaceholder_some {str : List Char} {f : Nat}
    {m : PlaceholderMatch}
    (h : findNextPlaceholder str f = some m) :
    f ≤ m.start ∧
    str.drop m.start = dollarC :: lbraceC :: str.drop (m.start + 2) ∧
    m.start + 2 ≤ str.length ∧
    m.endIdx < str.length ∧
    m.start + 2 ≤ m.endIdx + 1 ∧
    m.inner = (str.take m.endIdx).drop (m.start + 2) ∧
    m.full = (str.take (m.endIdx + 1)).drop m.start := by
  rw [findNextPlaceholder] at h
  split at h
  · cases h
  next start hs =>
    split at h
    · cases h
    next i hc =>
      cases h
      dsimp only
      have hfs : f ≤ start := scanStart_ge hs
      have hfound := scanStart_found hs
      have hdrop : (str.drop f).drop (start - f) = str.drop start := by
        rw [List.drop_drop]
        congr 1
        omega
      have hdrop2 : (str.drop f).drop (start - f + 2) = str.drop (start + 2) := by
        rw [List.drop_drop]
        congr 1
        omega
      rw [hdrop, hdrop2] at hfound
      have hlen : start + 2 ≤ str.length := by
        by_contra hlt
        have h1 : (str.drop start).length ≤ 1 := by
          simp only [List.length_drop]
          omega
        rw [hfound] at h1
        simp at h1
      have hge : start + 2 ≤ i := scanClose_ge hc
      have hlt : i - (start + 2) < (str.drop (start + 2)).length :=
        scanClose_lt_length hc
      simp only [List.length_drop] at hlt
      refine ⟨hfs, hfound, hlen, by omega, by omega, rfl, rfl⟩

/-- With no further placeholder from `searchFrom`, a pass returns its
accumulator unchanged — whatever the fuel. -/
theorem processPass_none {vars : Vars} {escape : Bool} {fuel : Nat}
    {result : List Char} {searchFrom : Nat} {anyChange : Bool}
    (h : findNextPlaceholder result searchFrom = none) :
    processPass vars escape fuel result searchFrom anyChange =
      (result, anyChange) := by
  cases fuel with
  | zero => rfl
  | succ k => rw [processPass, h]

/-- Past the end of the string there is no placeholder. -/
theorem findNextPlaceholder_past_end {str : List Char} {f : Nat}
    (h : str.length ≤ f) : findNextPlaceholder str f = none := by
  rw [findNextPlaceholder]
  have : str.drop f = [] := List.drop_eq_nil_of_le h
  rw [this]
  rfl

theorem countBackslashes_le (result : List Char) (start : Nat) :
    countBackslashes result start ≤ start := by
  unfold countBackslashes
  calc ((result.take start).reverse.takeWhile (fun c => c = bslashC)).length
      ≤ (result.take start).reverse.length :=
        (List.takeWhile_sublist _).length_le
    _ = (result.take start).length := List.length_reverse _
    _ ≤ start := by
        rw [List.length_take]
        exact Nat.min_le_left _ _

/-- Reassembling the prefix: the characters before the placeholder are the
characters before the backslash run followed by the run itself. -/
theorem countBackslashes_reassemble (result : List Char) (start : Nat)
    (h : start ≤ result.length) :
    result.take (start - countBackslashes result start) ++
      List.replicate (countBackslashes result start) bslashC =
      result.take start := by
  set t := result.take start with ht
  set b := countBackslashes result start with hb
  have htlen : t.length = start := by
    rw [ht, List.length_take]
    omega
  have hbt : b = (t.reverse.takeWhile (fun c => c = bslashC)).length := rfl
  have hsplit : t.reverse.takeWhile (fun c => c = bslashC) ++
      t.reverse.dropWhile (fun c => c = bslashC) = t.reverse :=
    List.takeWhile_append_dropWhile _ _
  have hrep : (t.reverse.takeWhile (fun c => c = bslashC)).reverse =
      List.replicate b bslashC := by
    rw [List.eq_replicate_iff]
    constructor
    · rw [List.length_reverse]; exact hbt.symm
    · intro c hc
      rw [List.mem_reverse] at hc
      have := List.mem_takeWhile_imp hc
      simpa using this
  have ht2 : t = (t.reverse.dropWhile (fun c => c = bslashC)).reverse ++
      List.replicate b bslashC := by
    rw [← hrep, ← List.reverse_append, hsplit, List.reverse_reverse]
  have hlen : ((t.reverse.dropWhile (fun c => c = bslashC)).reverse).length =
      start - b := by
    have := congrArg List.length hsplit
    simp only [List.length_append, List.length_reverse] at this ⊢
    omega
  have hres : result.take (start - b) = t.take (start - b) := by
    rw [ht, List.take_take]
    congr 1
    omega
  rw [hres]
  conv_lhs => rw [ht2]
  rw [List.take_left' hlen]
  exact ht2.symm

end EnvInterpolation

namespace EnvInterpolation

/-!
Concrete inputs for the example clauses of the claims.
-/

/-- The string `${VAR}`. -/
def sVAR : List Char := dollarC :: lbraceC :: (String.data "VAR" ++ [rbraceC])

/-- The string `\${VAR}` (one backslash before the placeholder). -/
def sBackVAR : List Char := bslashC :: sVAR

/-- The variable map `{VAR: "x"}`. -/
def exVarX : Vars :=
  fun k => if k = String.data "VAR" then some (String.data "x") else none

/-- The match found at offset 0 in `\${VAR}`. -/
def mBackVAR : PlaceholderMatch := ⟨1, 6, String.data "VAR", sVAR⟩

/--
C3: when escaping is on and a placeholder is immediately preceded by an odd
number of backslashes, the pass emits `⌊count/2⌋` literal backslashes
followed by the placeholder's literal text unsubstituted, advances past the
emitted text, and does not count this as a change (the accumulated flag is
passed through untouched); with escaping off the backslashes are untouched
and the placeholder substitutes normally:
`interpolate("\\${VAR}", {VAR:"x"}, {escape:true})` is `"${VAR}"` and with
`{escape:false}` it is `"\\x"`.
-/
theorem C3_escape_oddBackslashes :
    (∀ (vars : Vars) (fuel : Nat) (result : List Char) (searchFrom : Nat)
        (anyChange : Bool) (m : PlaceholderMatch) (b : Nat),
      findNextPlaceholder result searchFrom = some m →
      countBackslashes result m.start = b →
      b % 2 = 1 →
      processPass vars true (fuel + 1) result searchFrom anyChange =
        processPass vars true fuel
          (result.take (m.start - b) ++ List.replicate (b / 2) bslashC ++
            m.full ++ result.drop (m.endIdx + 1))
          ((result.take (m.start - b) ++ List.replicate (b / 2) bslashC).length
            + m.full.length)
          anyChange) ∧
    replace sBackVAR exVarX true 10 = sVAR ∧
    replace sBackVAR exVarX false 10 = bslashC :: String.data "x" := by
  refine ⟨?_, by decide, by decide⟩
  intro vars fuel result searchFrom anyChange m b hm hb hodd
  have hinv := findNextPlaceholder_some hm
  have hfull : m.full = (result.take (m.endIdx + 1)).drop m.start :=
    hinv.2.2.2.2.2.2
  have hpos : 0 < b := by omega
  rw [processPass, hm]
  simp only [hb, ← hfull]
  split
  · rfl
  next hcond => exact absurd ⟨trivial, hpos, hodd⟩ hcond

/-- Witness for C3 at the concrete input `\${VAR}`. -/
theorem C3_escape_oddBackslashes_witness :
    findNextPlaceholder sBackVAR 0 = some mBackVAR ∧
    countBackslashes sBackVAR 1 = 1 ∧
    processPass emptyVars true 1 sBackVAR 0 false =
      processPass emptyVars true 0
        (sBackVAR.take (1 - 1) ++ List.replicate (1 / 2) bslashC ++
          mBackVAR.full ++ sBackVAR.drop (6 + 1))
        ((sBackVAR.take (1 - 1) ++ List.replicate (1 / 2) bslashC).length
          + mBackVAR.full.length)
        false :=
  ⟨by decide, by decide,
    C3_escape_oddBackslashes.1 emptyVars 0 sBackVAR 0 false mBackVAR 1
      (by decide) (by decide) (by decide)⟩

end EnvInterpolation

namespace EnvInterpolation

/-- The string `${INVALID-NAME:foo}`. -/
def sInvalidName : List Char :=
  dollarC :: lbraceC ::
    (String.data "INVALID-NAME" ++ colonC :: String.data "foo" ++ [rbraceC])

/-- The match found at offset 0 in `${INVALID-NAME:foo}`. -/
def mInvalidName : PlaceholderMatch :=
  ⟨0, 18, String.data "INVALID-NAME" ++ colonC :: String.data "foo",
    sInvalidName⟩

/-- The string `${INVALID-VAR}`. -/
def sInvalidVar : List Char :=
  dollarC :: lbraceC :: (String.data "INVALID-VAR" ++ [rbraceC])

/--
C4: a placeholder whose key fails `[A-Za-z0-9_]+` validation is left as
literal text and never substituted (when the invalid-name branch runs, the
string is completely unchanged and the cursor just moves past the `${`), and
no error is ever raised (the step is total); all preceding backslashes are
kept whenever escaping is off or the backslash count is even, and in
particular with escaping disabled no backslash is ever dropped; the only
case in which a backslash count drops by exactly one is escaping on with an
odd count (third example, handled by the escape branch).
-/
theorem C4_invalidName_literal :
    (∀ (vars : Vars) (escape : Bool) (fuel : Nat) (result : List Char)
        (searchFrom : Nat) (anyChange : Bool) (m : PlaceholderMatch) (b : Nat),
      findNextPlaceholder result searchFrom = some m →
      countBackslashes result m.start = b →
      isValidVarName (parsePlaceholder m.inner).1 = false →
      ¬(escape = true ∧ 0 < b ∧ b % 2 = 1) →
      processPass vars escape (fuel + 1) result searchFrom anyChange =
        processPass vars escape fuel result (m.start + 2) true) ∧
    replace sInvalidName emptyVars true 10 = sInvalidName ∧
    replace (bslashC :: sInvalidVar) emptyVars false 10 =
      bslashC :: sInvalidVar ∧
    replace (bslashC :: sInvalidVar) emptyVars true 10 = sInvalidVar := by
  refine ⟨?_, by decide, by decide, by decide⟩
  intro vars escape fuel result searchFrom anyChange m b hm hb hkey hesc
  have hinv := findNextPlaceholder_some hm
  have hb_le : b ≤ m.start := hb ▸ countBackslashes_le result m.start
  have hstart_le : m.start ≤ result.length := by
    have := hinv.2.2.1
    omega
  have hre : result.take (m.start - b) ++ List.replicate b bslashC =
      result.take m.start := by
    rw [← hb]
    exact countBackslashes_reassemble result m.start hstart_le
  have hdrop : dollarC :: lbraceC :: result.drop (m.start + 2) =
      result.drop m.start := hinv.2.1.symm
  rw [processPass, hm]
  simp only [hb]
  rw [if_neg hesc]
  rw [if_pos hkey]
  rw [if_neg (show ¬(escape = true ∧ b % 2 = 1) from
    fun h => hesc ⟨h.1, by omega, h.2⟩)]
  rw [Nat.sub_zero]
  rw [show m.start - b + b + 2 = m.start + 2 from by omega]
  rw [hdrop, hre, List.take_append_drop]

/-- Witness for C4 at the concrete input `${INVALID-NAME:foo}`. -/
theorem C4_invalidName_literal_witness :
    findNextPlaceholder sInvalidName 0 = some mInvalidName ∧
    isValidVarName (parsePlaceholder mInvalidName.inner).1 = false ∧
    processPass emptyVars true 1 sInvalidName 0 false =
      processPass emptyVars true 0 sInvalidName (mInvalidName.start + 2) true :=
  ⟨by decide, by decide,
    C4_invalidName_literal.1 emptyVars true 0 sInvalidName 0 false
      mInvalidName 0 (by decide) (by decide) (by decide) (by decide)⟩

/--
C10 (implicit): in the invalid-name branch of `replace`, the
backslash-dropping condition (escaping on with an odd count) is
unreachable — such a placeholder is consumed by the earlier escape
branch — so whenever the invalid-name branch executes, `removeOne` is `0`
and the branch's rebuilt string keeps every preceding backslash: it equals
the input string exactly.
-/
theorem C10_removeOne_is_zero :
    ∀ (escape : Bool) (result : List Char) (searchFrom : Nat)
      (m : PlaceholderMatch) (b : Nat),
      findNextPlaceholder result searchFrom = some m →
      countBackslashes result m.start = b →
      isValidVarName (parsePlaceholder m.inner).1 = false →
      ¬(escape = true ∧ 0 < b ∧ b % 2 = 1) →
      (if escape = true ∧ b % 2 = 1 then 1 else 0) = 0 ∧
      result.take (m.start - b) ++
        List.replicate (b - (if escape = true ∧ b % 2 = 1 then 1 else 0))
          bslashC ++
        dollarC :: lbraceC :: result.drop (m.start + 2) = result := by
  intro escape result searchFrom m b hm hb hkey hesc
  have hinv := findNextPlaceholder_some hm
  have hb_le : b ≤ m.start := hb ▸ countBackslashes_le result m.start
  have hstart_le : m.start ≤ result.length := by
    have := hinv.2.2.1
    omega
  have hrm : ¬(escape = true ∧ b % 2 = 1) :=
    fun h => hesc ⟨h.1, by omega, h.2⟩
  refine ⟨if_neg hrm, ?_⟩
  rw [if_neg hrm, Nat.sub_zero]
  have hre : result.take (m.start - b) ++ List.replicate b bslashC =
      result.take m.start := by
    rw [← hb]
    exact countBackslashes_reassemble result m.start hstart_le
  rw [hinv.2.1.symm, hre, List.take_append_drop]

/-- Witness for C10 at the concrete input `${INVALID-NAME:foo}`. -/
theorem C10_removeOne_is_zero_witness :
    findNextPlaceholder sInvalidName 0 = some mInvalidName ∧
    ((if (true : Bool) = true ∧ (0 : Nat) % 2 = 1 then 1 else 0) = 0 ∧
      sInvalidName.take (mInvalidName.start - 0) ++
        List.replicate
          (0 - (if (true : Bool) = true ∧ (0 : Nat) % 2 = 1 then 1 else 0))
          bslashC ++
        dollarC :: lbraceC :: sInvalidName.drop (mInvalidName.start + 2) =
        sInvalidName) :=
  ⟨by decide,
    C10_removeOne_is_zero true sInvalidName 0 mInvalidName 0
      (by decide) (by decide) (by decide) (by decide)⟩

end EnvInterpolation

namespace EnvInterpolation

/-- The string `${V:}` (empty default). -/
def sVempty : List Char :=
  dollarC :: lbraceC :: (String.data "V" ++ [colonC, rbraceC])

/-- The string `Hello ${NAME:Guest}!`. -/
def sHelloName : List Char :=
  String.data "Hello " ++
    (dollarC :: lbraceC ::
      (String.data "NAME" ++ colonC :: String.data "Guest" ++ [rbraceC])) ++
    String.data "!"

/-- The variable map `{NAME: ""}` (defined but empty). -/
def exNameEmpty : Vars :=
  fun k => if k = String.data "NAME" then some [] else none

/-- The string `${NAME}` (no default). -/
def sNAMEonly : List Char :=
  dollarC :: lbraceC :: (String.data "NAME" ++ [rbraceC])

/-- The match found at offset 0 in `${VAR}`. -/
def mVAR : PlaceholderMatch := ⟨0, 5, String.data "VAR", sVAR⟩

/--
C5: resolution precedence for a valid key — a defined map value (even the
empty string) is the replacement and marks a change; otherwise a non-empty
default is unquoted and is the replacement, marking a change; otherwise
(no value and no default, or an empty default text) the replacement is the
original literal placeholder text and the change flag is passed through
unchanged.  Examples: `${V:}` and `${NAME}` are preserved; a defined empty
value erases the placeholder.
-/
theorem C5_resolution_precedence :
    (∀ (vars : Vars) (escape : Bool) (fuel : Nat) (result : List Char)
        (searchFrom : Nat) (anyChange : Bool) (m : PlaceholderMatch) (b : Nat)
        (v : List Char),
      findNextPlaceholder result searchFrom = some m →
      countBackslashes result m.start = b →
      ¬(escape = true ∧ 0 < b ∧ b % 2 = 1) →
      isValidVarName (parsePlaceholder m.inner).1 = true →
      vars (parsePlaceholder m.inner).1 = some v →
      processPass vars escape (fuel + 1) result searchFrom anyChange =
        processPass vars escape fuel
          (result.take (m.start - b) ++
            List.replicate (if escape = true ∧ 0 < b then b / 2 else b)
              bslashC ++ v ++ result.drop (m.endIdx + 1))
          ((result.take (m.start - b) ++
            List.replicate (if escape = true ∧ 0 < b then b / 2 else b)
              bslashC).length + v.length)
          true) ∧
    (∀ (vars : Vars) (escape : Bool) (fuel : Nat) (result : List Char)
        (searchFrom : Nat) (anyChange : Bool) (m : PlaceholderMatch) (b : Nat)
        (d : List Char),
      findNextPlaceholder result searchFrom = some m →
      countBackslashes result m.start = b →
      ¬(escape = true ∧ 0 < b ∧ b % 2 = 1) →
      isValidVarName (parsePlaceholder m.inner).1 = true →
      vars (parsePlaceholder m.inner).1 = none →
      (parsePlaceholder m.inner).2 = some d →
      d ≠ [] →
      processPass vars escape (fuel + 1) result searchFrom anyChange =
        processPass vars escape fuel
          (result.take (m.start - b) ++
            List.replicate (if escape = true ∧ 0 < b then b / 2 else b)
              bslashC ++ unquote d ++ result.drop (m.endIdx + 1))
          ((result.take (m.start - b) ++
            List.replicate (if escape = true ∧ 0 < b then b / 2 else b)
              bslashC).length + (unquote d).length)
          true) ∧
    (∀ (vars : Vars) (escape : Bool) (fuel : Nat) (result : List Char)
        (searchFrom : Nat) (anyChange : Bool) (m : PlaceholderMatch) (b : Nat),
      findNextPlaceholder result searchFrom = some m →
      countBackslashes result m.start = b →
      ¬(escape = true ∧ 0 < b ∧ b % 2 = 1) →
      isValidVarName (parsePlaceholder m.inner).1 = true →
      vars (parsePlaceholder m.inner).1 = none →
      ((parsePlaceholder m.inner).2 = none ∨
        (parsePlaceholder m.inner).2 = some []) →
      processPass vars escape (fuel + 1) result searchFrom anyChange =
        processPass vars escape fuel
          (result.take (m.start - b) ++
            List.replicate (if escape = true ∧ 0 < b then b / 2 else b)
              bslashC ++ m.full ++ result.drop (m.endIdx + 1))
          ((result.take (m.start - b) ++
            List.replicate (if escape = true ∧ 0 < b then b / 2 else b)
              bslashC).length + m.full.length)
          anyChange) ∧
    replace sVempty emptyVars true 10 = sVempty ∧
    replace sHelloName exNameEmpty true 10 = String.data "Hello !" ∧
    replace sNAMEonly emptyVars true 10 = sNAMEonly := by
  refine ⟨?_, ?_, ?_, by decide, by decide, by decide⟩
  · intro vars escape fuel result searchFrom anyChange m b v hm hb hesc hkey hv
    rw [processPass, hm]
    simp only [hb]
    rw [if_neg hesc]
    rw [if_neg (show ¬(isValidVarName (parsePlaceholder m.inner).1 = false)
      from by simp [hkey])]
    simp only [hv]
  · intro vars escape fuel result searchFrom anyChange m b d hm hb hesc hkey
      hnone hd hdne
    rw [processPass, hm]
    simp only [hb]
    rw [if_neg hesc]
    rw [if_neg (show ¬(isValidVarName (parsePlaceholder m.inner).1 = false)
      from by simp [hkey])]
    simp only [hnone, hd]
    rw [if_pos hdne]
  · intro vars escape fuel result searchFrom anyChange m b hm hb hesc hkey
      hnone hdflt
    rw [processPass, hm]
    simp only [hb]
    rw [if_neg hesc]
    rw [if_neg (show ¬(isValidVarName (parsePlaceholder m.inner).1 = false)
      from by simp [hkey])]
    rcases hdflt with h | h
    · simp only [hnone, h]
    · simp only [hnone, h]
      rw [if_neg (show ¬(([] : List Char) ≠ []) from by simp)]

/-- Witness for C5 at `${VAR}` with `{VAR: "x"}` (value-defined case). -/
theorem C5_resolution_precedence_witness :
    findNextPlaceholder sVAR 0 = some mVAR ∧
    exVarX (parsePlaceholder mVAR.inner).1 = some (String.data "x") ∧
    processPass exVarX true 1 sVAR 0 false =
      processPass exVarX true 0
        (sVAR.take (0 - 0) ++
          List.replicate (if (true : Bool) = true ∧ 0 < 0 then 0 / 2 else 0)
            bslashC ++ String.data "x" ++ sVAR.drop (5 + 1))
        ((sVAR.take (0 - 0) ++
          List.replicate (if (true : Bool) = true ∧ 0 < 0 then 0 / 2 else 0)
            bslashC).length + (String.data "x").length)
        true :=
  ⟨by decide, by decide,
    C5_resolution_precedence.1 exVarX true 0 sVAR 0 false mVAR 0
      (String.data "x") (by decide) (by decide) (by decide) (by decide)
      (by decide)⟩

end EnvInterpolation

namespace EnvInterpolation

/-- The string `${V:"a:b"}`. -/
def sQuotedDq : List Char :=
  dollarC :: lbraceC ::
    (String.data "V" ++ colonC :: dquoteC :: String.data "a:b" ++
      [dquoteC, rbraceC])

/-- The string `${V:'a:b'}`. -/
def sQuotedSq : List Char :=
  dollarC :: lbraceC ::
    (String.data "V" ++ colonC :: squoteC :: String.data "a:b" ++
      [squoteC, rbraceC])

/-- The string `${V:"a'}` (mismatched quotes). -/
def sMismatch : List Char :=
  dollarC :: lbraceC ::
    (String.data "V" ++ colonC :: dquoteC :: String.data "a" ++
      [squoteC, rbraceC])

/--
C1: for a valid name, an undefined variable and a non-empty default text,
substitution strips exactly one layer of wrapping quotes when the default
both starts and ends with the same quote character (double or single), and
preserves the default verbatim when the quoting is mismatched or absent;
`interpolate` on `${V:"a:b"}` and `${V:'a:b'}` with `{}` yields `a:b`, and
`${V:"a'}` yields `"a'` verbatim.
-/
theorem C1_default_quoting :
    (∀ (q : Char) (mid : List Char), q = dquoteC ∨ q = squoteC →
      unquote (q :: (mid ++ [q])) = mid) ∧
    (∀ s : List Char,
      ¬((s.head? = some dquoteC ∧ s.getLast? = some dquoteC) ∨
        (s.head? = some squoteC ∧ s.getLast? = some squoteC)) →
      unquote s = s) ∧
    interpolate (.str sQuotedDq) [] emptyVars true 10 =
      some (.str (String.data "a:b"), ⟨[], []⟩) ∧
    interpolate (.str sQuotedSq) [] emptyVars true 10 =
      some (.str (String.data "a:b"), ⟨[], []⟩) ∧
    interpolate (.str sMismatch) [] emptyVars true 10 =
      some (.str (dquoteC :: String.data "a" ++ [squoteC]), ⟨[], []⟩) := by
  refine ⟨?_, ?_, by decide, by decide, by decide⟩
  · intro q mid hq
    have h1 : (q :: (mid ++ [q])).head? = some q := rfl
    have h2 : (q :: (mid ++ [q])).getLast? = some q := by
      rw [show q :: (mid ++ [q]) = (q :: mid) ++ [q] from by simp]
      exact List.getLast?_concat _
    unfold unquote
    rcases hq with hq | hq <;> subst hq
    · rw [if_pos (Or.inl ⟨h1, h2⟩)]
      simp
    · rw [if_pos (Or.inr ⟨h1, h2⟩)]
      simp
  · intro s h
    unfold unquote
    rw [if_neg h]

/-- Witness for C1's quantified clauses at a concrete quoted string. -/
theorem C1_default_quoting_witness :
    unquote (dquoteC :: (String.data "a:b" ++ [dquoteC])) =
      String.data "a:b" :=
  C1_default_quoting.1 dquoteC (String.data "a:b") (Or.inl rfl)

/--
C6: `replace` (and therefore `interpolate` on string content) with
`maxPasses = 0` performs no substitution at all: pass 1 never executes and
every string input is returned unchanged.
-/
theorem C6_maxPasses_zero :
    (∀ (content : List Char) (vars : Vars) (escape : Bool),
      replace content vars escape 0 = content) ∧
    (∀ (s : List Char) (heap : Heap) (vars : Vars) (escape : Bool),
      interpolate (.str s) heap vars escape 0 = some (.str s, ⟨heap, []⟩)) := by
  constructor
  · intro content vars escape
    rfl
  · intro s heap vars escape
    rfl

/--
C7: substitution is idempotent at its fixed point — once a pass leaves a
string unchanged, every further pass leaves it unchanged as well, and
applying `replace` to such a fixed point (with any pass ceiling, the same
variables and options) returns it unaltered.
-/
theorem C7_fixpoint_idempotent :
    ∀ (vars : Vars) (escape : Bool) (s : List Char),
      (onePass vars escape s).1 = s →
      (∀ k, passIter vars escape k s = s) ∧
      (∀ maxPasses, replace s vars escape maxPasses = s) := by
  intro vars escape s hfix
  constructor
  · intro k
    induction k with
    | zero => rfl
    | succ n ih =>
      rw [passIter, hfix]
      exact ih
  · intro mp
    cases mp with
    | zero => rfl
    | succ r =>
      show replaceLoop vars escape (r + 1) s = s
      rw [replaceLoop]
      cases hp : (onePass vars escape s).2 with
      | false => simp [hp, hfix]
      | true => simp [hp, hfix]

/-- Witness for C7 at a placeholder-free string. -/
theorem C7_fixpoint_idempotent_witness :
    (onePass emptyVars true (String.data "hello")).1 = String.data "hello" ∧
    replace (String.data "hello") emptyVars true 10 = String.data "hello" :=
  ⟨by decide,
    (C7_fixpoint_idempotent emptyVars true (String.data "hello")
      (by decide)).2 10⟩

end EnvInterpolation

namespace EnvInterpolation

/-!
Lemmas for nested default chains (the pass-limit claim).
-/

theorem scanClose_append_nobrace {u : List Char} {i bc : Nat} {v : List Char}
    (h : ∀ c ∈ u, c ≠ lbraceC ∧ c ≠ rbraceC) :
    scanClose (u ++ v) i bc = scanClose v (i + u.length) bc := by
  induction u generalizing i with
  | nil => simp
  | cons c rest ih =>
    have hc := h c (List.mem_cons_self _ _)
    rw [List.cons_append, scanClose, if_neg hc.1, if_neg hc.2,
      ih (fun x hx => h x (List.mem_cons_of_mem _ hx))]
    congr 1
    simp only [List.length_cons]
    omega

theorem validName_chars {n : List Char} (h : isValidVarName n = true) :
    ∀ c ∈ n, c ≠ lbraceC ∧ c ≠ rbraceC ∧ c ≠ colonC ∧ c ≠ dollarC := by
  intro c hc
  unfold isValidVarName at h
  rw [Bool.and_eq_true, List.all_eq_true] at h
  have hcc := h.2 c hc
  refine ⟨?_, ?_, ?_, ?_⟩ <;> intro he <;> subst he <;> revert hcc <;> decide

theorem chainStr_cons_length {n : List Char} {rest : List (List Char)}
    {d : List Char} :
    (chainStr (n :: rest) d).length =
      n.length + (chainStr rest d).length + 4 := by
  simp only [chainStr, List.length_cons, List.length_append,
    List.length_singleton, List.length_nil]
  omega

theorem scanClose_chain {names : List (List Char)} {d : List Char}
    (hnames : ∀ n ∈ names, isValidVarName n = true)
    (hd : ∀ c ∈ d, plainChar c) :
    ∀ {v : List Char} {i bc : Nat}, 1 ≤ bc →
    scanClose (chainStr names d ++ v) i bc =
      scanClose v (i + (chainStr names d).length) bc := by
  induction names with
  | nil =>
    intro v i bc _
    exact scanClose_append_nobrace
      (fun c hc => ⟨(hd c hc).2.1, (hd c hc).2.2.1⟩)
  | cons n rest ih =>
    intro v i bc hbc
    have hn := hnames n (List.mem_cons_self _ _)
    have hrest : ∀ x ∈ rest, isValidVarName x = true :=
      fun x hx => hnames x (List.mem_cons_of_mem _ hx)
    rw [chainStr, List.cons_append, List.cons_append]
    rw [scanClose, if_neg (by decide : ¬dollarC = lbraceC),
      if_neg (by decide : ¬dollarC = rbraceC)]
    rw [scanClose, if_pos rfl]
    rw [List.append_assoc n _ v]
    rw [scanClose_append_nobrace
      (fun c hc => ⟨(validName_chars hn c hc).1, (validName_chars hn c hc).2.1⟩)]
    rw [List.cons_append]
    rw [scanClose, if_neg (by decide : ¬colonC = lbraceC),
      if_neg (by decide : ¬colonC = rbraceC)]
    rw [List.append_assoc (chainStr rest d) [rbraceC] v]
    rw [ih hrest (by omega : 1 ≤ bc + 1)]
    rw [List.singleton_append]
    rw [scanClose, if_neg (by decide : ¬rbraceC = lbraceC), if_pos rfl,
      if_neg (by omega : ¬bc + 1 = 1)]
    have hsub : bc + 1 - 1 = bc := by omega
    rw [hsub]
    congr 1
    simp only [List.length_cons, List.length_append, List.length_singleton,
      List.length_nil]
    omega

/-- The chain written with its closing brace split off. -/
theorem chainStr_cons_eq {n : List Char} {rest : List (List Char)}
    {d : List Char} :
    chainStr (n :: rest) d =
      (dollarC :: lbraceC :: (n ++ colonC :: chainStr rest d)) ++ [rbraceC] := by
  simp [chainStr]

theorem findNextPlaceholder_chain {n : List Char} {rest : List (List Char)}
    {d : List Char}
    (hn : isValidVarName n = true)
    (hrest : ∀ x ∈ rest, isValidVarName x = true)
    (hd : ∀ c ∈ d, plainChar c) :
    findNextPlaceholder (chainStr (n :: rest) d) 0 =
      some ⟨0, (chainStr (n :: rest) d).length - 1,
            n ++ colonC :: chainStr rest d, chainStr (n :: rest) d⟩ := by
  have hlen := @chainStr_cons_length n rest d
  have hs : scanStart ((chainStr (n :: rest) d).drop 0) 0 = some 0 := by
    rw [List.drop_zero, chainStr, scanStart, if_pos ⟨rfl, rfl⟩]
  have hdrop2 : (chainStr (n :: rest) d).drop (0 + 2) =
      n ++ colonC :: (chainStr rest d ++ [rbraceC]) := by
    rw [chainStr]
    rfl
  have hc : scanClose ((chainStr (n :: rest) d).drop (0 + 2)) (0 + 2) 1 =
      some ((chainStr (n :: rest) d).length - 1) := by
    rw [hdrop2]
    rw [scanClose_append_nobrace (fun c hc =>
      ⟨(validName_chars hn c hc).1, (validName_chars hn c hc).2.1⟩)]
    rw [scanClose, if_neg (by decide : ¬colonC = lbraceC),
      if_neg (by decide : ¬colonC = rbraceC)]
    rw [scanClose_chain hrest hd (by omega : (1:Nat) ≤ 1)]
    rw [scanClose, if_neg (by decide : ¬rbraceC = lbraceC), if_pos rfl,
      if_pos rfl]
    congr 1
    omega
  rw [findNextPlaceholder]
  rw [hs]
  dsimp only
  rw [hc]
  dsimp only
  simp only [Option.some.injEq, PlaceholderMatch.mk.injEq]
  refine ⟨trivial, trivial, ?_, ?_⟩
  · rw [chainStr_cons_eq]
    rw [show ((dollarC :: lbraceC :: (n ++ colonC :: chainStr rest d)) ++
          [rbraceC]).length - 1 =
        (dollarC :: lbraceC :: (n ++ colonC :: chainStr rest d)).length from by
      simp
      omega]
    rw [List.take_left]
    rfl
  · have h1 : (chainStr (n :: rest) d).length - 1 + 1 =
        (chainStr (n :: rest) d).length := by omega
    rw [h1, List.take_length, List.drop_zero]

end EnvInterpolation

namespace EnvInterpolation

theorem indexOfColon_append {n t : List Char} (hn : ∀ c ∈ n, c ≠ colonC) :
    indexOfColon (n ++ colonC :: t) = some n.length := by
  induction n with
  | nil => simp [indexOfColon]
  | cons c rest ih =>
    rw [List.cons_append, indexOfColon,
      if_neg (hn c (List.mem_cons_self _ _)),
      ih (fun x hx => hn x (List.mem_cons_of_mem _ hx))]
    rfl

theorem parsePlaceholder_append_colon {n t : List Char}
    (hn : ∀ c ∈ n, c ≠ colonC) :
    parsePlaceholder (n ++ colonC :: t) = (n, some t) := by
  rw [parsePlaceholder, indexOfColon_append hn]
  dsimp only
  congr 1
  · exact List.take_left' rfl
  · congr 1
    rw [show n.length + 1 = (n ++ [colonC]).length from by simp]
    rw [show n ++ colonC :: t = (n ++ [colonC]) ++ t from by simp]
    exact List.drop_left _ _

theorem countBackslashes_zero (s : List Char) : countBackslashes s 0 = 0 := by
  simp [countBackslashes]

theorem chainStr_ne_nil {rest : List (List Char)} {d : List Char}
    (hdne : d ≠ []) : chainStr rest d ≠ [] := by
  cases rest with
  | nil => simpa [chainStr] using hdne
  | cons n r => simp [chainStr]

theorem unquote_chainStr {rest : List (List Char)} {d : List Char}
    (hd : ∀ c ∈ d, plainChar c) :
    unquote (chainStr rest d) = chainStr rest d := by
  rw [unquote, if_neg]
  rintro (⟨h1, h2⟩ | ⟨h1, h2⟩) <;>
  · cases rest with
    | nil =>
      have hq := List.mem_of_mem_head? h1
      have := hd _ hq
      simp [plainChar] at this
    | cons n r =>
      rw [chainStr] at h1
      simp at h1
      revert h1
      decide

theorem scanStart_none {s : List Char} (h : ∀ c ∈ s, c ≠ dollarC) :
    ∀ i, scanStart s i = none := by
  induction s with
  | nil => intro i; rfl
  | cons c rest ih =>
    intro i
    cases rest with
    | nil => rfl
    | cons c2 r2 =>
      rw [scanStart, if_neg (fun hc => h c (List.mem_cons_self _ _) hc.1)]
      exact ih (fun x hx => h x (List.mem_cons_of_mem _ hx)) (i + 1)

theorem findNextPlaceholder_plain {s : List Char}
    (h : ∀ c ∈ s, c ≠ dollarC) (i : Nat) :
    findNextPlaceholder s i = none := by
  rw [findNextPlaceholder,
    scanStart_none (fun c hc => h c (List.drop_subset i s hc)) i]

/-- One pass over a nonempty chain strips exactly one level: the outer
placeholder's name is valid and unset, so its (non-empty, unquoted) default
becomes the whole string, and the cursor lands at the end of the pass. -/
theorem onePass_chain {n : List Char} {rest : List (List Char)}
    {d : List Char} (escape : Bool)
    (hn : isValidVarName n = true)
    (hrest : ∀ x ∈ rest, isValidVarName x = true)
    (hd : ∀ c ∈ d, plainChar c) (hdne : d ≠ []) :
    onePass emptyVars escape (chainStr (n :: rest) d) =
      (chainStr rest d, true) := by
  have hlen := @chainStr_cons_length n rest d
  rw [onePass, processPass, findNextPlaceholder_chain hn hrest hd]
  dsimp only
  rw [countBackslashes_zero]
  rw [if_neg (by rintro ⟨-, h, -⟩; omega)]
  rw [parsePlaceholder_append_colon
    (fun c hc => (validName_chars hn c hc).2.2.1)]
  dsimp only
  rw [if_neg (by simp [hn])]
  rw [show emptyVars n = none from rfl]
  dsimp only
  rw [if_pos (chainStr_ne_nil hdne)]
  rw [unquote_chainStr hd]
  dsimp only
  rw [if_neg (by rintro ⟨-, h⟩; omega)]
  have hdropall : (chainStr (n :: rest) d).drop
      ((chainStr (n :: rest) d).length - 1 + 1) = [] := by
    apply List.drop_eq_nil_of_le
    omega
  rw [hdropall]
  simp only [List.take_zero, Nat.sub_zero, List.replicate_zero,
    List.append_nil, List.nil_append, List.length_nil, Nat.zero_add]
  exact processPass_none (findNextPlaceholder_past_end (Nat.le_refl _))

end EnvInterpolation

namespace EnvInterpolation

theorem onePass_plain {d : List Char} (hd : ∀ c ∈ d, plainChar c)
    (vars : Vars) (escape : Bool) :
    onePass vars escape d = (d, false) := by
  rw [onePass]
  exact processPass_none (findNextPlaceholder_plain
    (fun c hc => (hd c hc).1) 0)

theorem replaceLoop_chain {d : List Char} (escape : Bool)
    (hd : ∀ c ∈ d, plainChar c) (hdne : d ≠ []) :
    ∀ (remaining : Nat) (names : List (List Char)),
    (∀ x ∈ names, isValidVarName x = true) →
    replaceLoop emptyVars escape remaining (chainStr names d) =
      chainStr (names.drop remaining) d := by
  intro remaining
  induction remaining with
  | zero => intro names _; rfl
  | succ r ih =>
    intro names hnames
    cases names with
    | nil =>
      rw [show chainStr [] d = d from rfl, replaceLoop]
      simp only [onePass_plain hd emptyVars escape]
      rfl
    | cons n rest =>
      rw [replaceLoop]
      have hrest : ∀ x ∈ rest, isValidVarName x = true :=
        fun x hx => hnames x (List.mem_cons_of_mem _ hx)
      rw [onePass_chain escape (hnames n (List.mem_cons_self _ _)) hrest hd
        hdne]
      have hne : ¬(chainStr rest d = chainStr (n :: rest) d) := by
        intro h
        have hl := congrArg List.length h
        rw [chainStr_cons_length] at hl
        omega
      simp only [if_neg hne]
      rw [if_neg (by decide : ¬true = false)]
      rw [ih rest hrest]
      rfl

/-- The chain `${A:${B:${C:default}}}`. -/
def sChainABC : List Char :=
  chainStr [String.data "A", String.data "B", String.data "C"]
    (String.data "default")

/-- The chain `${B:${C:default}}`. -/
def sChainBC : List Char :=
  chainStr [String.data "B", String.data "C"] (String.data "default")

/--
C2: a chain of `N` nested default placeholders over an empty variable map
resolves exactly one level per pass: with a pass ceiling of `maxPasses` the
first `maxPasses` levels are stripped, so for `maxPasses < N` the output is
the still-unresolved `${…}` remainder, and for `maxPasses ≥ N` the chain
resolves fully to the innermost default; in particular
`interpolate("${A:${B:${C:default}}}", {}, {maxPasses:1})` is
`"${B:${C:default}}"`.
-/
theorem C2_passLimit_containment :
    (∀ (names : List (List Char)) (d : List Char) (maxPasses : Nat)
        (escape : Bool),
      (∀ x ∈ names, isValidVarName x = true) →
      (∀ c ∈ d, plainChar c) → d ≠ [] →
      replace (chainStr names d) emptyVars escape maxPasses =
        chainStr (names.drop maxPasses) d) ∧
    (∀ (names : List (List Char)) (d : List Char) (maxPasses : Nat)
        (escape : Bool),
      (∀ x ∈ names, isValidVarName x = true) →
      (∀ c ∈ d, plainChar c) → d ≠ [] →
      maxPasses < names.length →
      ∃ t : List Char,
        replace (chainStr names d) emptyVars escape maxPasses =
          dollarC :: lbraceC :: t) ∧
    (∀ (names : List (List Char)) (d : List Char) (maxPasses : Nat)
        (escape : Bool),
      (∀ x ∈ names, isValidVarName x = true) →
      (∀ c ∈ d, plainChar c) → d ≠ [] →
      names.length ≤ maxPasses →
      replace (chainStr names d) emptyVars escape maxPasses = d) ∧
    interpolate (.str sChainABC) [] emptyVars true 1 =
      some (.str sChainBC, ⟨[], []⟩) := by
  have main : ∀ (names : List (List Char)) (d : List Char) (maxPasses : Nat)
      (escape : Bool),
      (∀ x ∈ names, isValidVarName x = true) →
      (∀ c ∈ d, plainChar c) → d ≠ [] →
      replace (chainStr names d) emptyVars escape maxPasses =
        chainStr (names.drop maxPasses) d := by
    intro names d maxPasses escape hnames hd hdne
    exact replaceLoop_chain escape hd hdne maxPasses names hnames
  refine ⟨main, ?_, ?_, by decide⟩
  · intro names d maxPasses escape hnames hd hdne hlt
    rw [main names d maxPasses escape hnames hd hdne]
    rcases hdrop : names.drop maxPasses with _ | ⟨n, rest⟩
    · have := congrArg List.length hdrop
      simp only [List.length_drop, List.length_nil] at this
      omega
    · exact ⟨n ++ colonC :: (chainStr rest d ++ [rbraceC]), rfl⟩
  · intro names d maxPasses escape hnames hd hdne hge
    rw [main names d maxPasses escape hnames hd hdne]
    rw [List.drop_eq_nil_of_le hge]
    rfl

/-- Witness for C2: the three-level chain with `maxPasses = 1` resolves
exactly one level. -/
theorem C2_passLimit_containment_witness :
    replace sChainABC emptyVars true 1 = sChainBC :=
  C2_passLimit_containment.1
    [String.data "A", String.data "B", String.data "C"]
    (String.data "default") 1 true (by decide) (by decide) (by decide)

end EnvInterpolation

namespace EnvInterpolation

/-!
Graph-copy correctness of the traverser.
-/

/-- Every reference in `v` has already been visited (is a key of `seen`). -/
def valRefSeen (seen : List (Nat × Nat)) (v : JSValue) : Prop :=
  ∀ a, v = .ref a → (lookupSeen seen a).isSome

/-- Every reference stored in a container has already been visited. -/
def contRefsSeen (seen : List (Nat × Nat)) : Container → Prop
  | .arr items => ∀ v ∈ items, valRefSeen seen v
  | .obj fields => ∀ f ∈ fields, valRefSeen seen f.2

theorem lookupSeen_mem {seen : List (Nat × Nat)} {a o : Nat}
    (h : lookupSeen seen a = some o) : (a, o) ∈ seen := by
  induction seen with
  | nil => cases h
  | cons p rest ih =>
    obtain ⟨p1, p2⟩ := p
    rw [lookupSeen] at h
    split at h
    next heq =>
      cases h
      simp only at heq
      subst heq
      exact List.mem_cons_self _ _
    next => exact List.mem_cons_of_mem _ (ih h)

theorem lookupSeen_isSome_of_mem {seen : List (Nat × Nat)} {a o : Nat}
    (h : (a, o) ∈ seen) : (lookupSeen seen a).isSome := by
  induction seen with
  | nil => cases h
  | cons p rest ih =>
    rw [lookupSeen]
    rcases List.mem_cons.mp h with h1 | h1
    · rw [if_pos (by rw [← h1])]
      rfl
    · split
      · rfl
      · exact ih h1

theorem lookupSeen_none_not_mem {seen : List (Nat × Nat)} {a : Nat}
    (h : lookupSeen seen a = none) : a ∉ seen.map Prod.fst := by
  intro hmem
  obtain ⟨p, hp, hfst⟩ := List.mem_map.mp hmem
  have := @lookupSeen_isSome_of_mem seen a p.2
    (by rw [show (a, p.2) = p from by ext <;> simp [hfst]]; exact hp)
  rw [h] at this
  cases this

theorem lookupSeen_append {l1 l2 : List (Nat × Nat)} {a : Nat} :
    lookupSeen (l1 ++ l2) a =
      match lookupSeen l1 a with
      | some o => some o
      | none => lookupSeen l2 a := by
  induction l1 with
  | nil => rfl
  | cons p rest ih =>
    rw [List.cons_append, lookupSeen, lookupSeen]
    split
    · rfl
    · exact ih

theorem lookupSeen_eq_of_mem_nodup {seen : List (Nat × Nat)} {a o : Nat}
    (hnd : (seen.map Prod.fst).Nodup) (h : (a, o) ∈ seen) :
    lookupSeen seen a = some o := by
  induction seen with
  | nil => cases h
  | cons p rest ih =>
    rw [List.map_cons, List.nodup_cons] at hnd
    rw [lookupSeen]
    rcases List.mem_cons.mp h with h1 | h1
    · rw [if_pos (by rw [← h1]), ← h1]
    · rw [if_neg ?hne]
      · exact ih hnd.2 h1
      case hne =>
        intro heq
        exact hnd.1 (heq ▸ List.mem_map.mpr ⟨(a, o), h1, rfl⟩)

theorem lookupSeen_extend {new seen : List (Nat × Nat)} {a o : Nat}
    (hnd : ((new ++ seen).map Prod.fst).Nodup)
    (h : lookupSeen seen a = some o) :
    lookupSeen (new ++ seen) a = some o := by
  rw [lookupSeen_append]
  cases hn : lookupSeen new a with
  | none => exact h
  | some q =>
    exfalso
    rw [List.map_append, List.nodup_append] at hnd
    exact hnd.2.2 (List.mem_map.mpr ⟨(a, q), lookupSeen_mem hn, rfl⟩)
      (List.mem_map.mpr ⟨(a, o), lookupSeen_mem h, rfl⟩)

theorem lookupSeen_isSome_mono {new seen : List (Nat × Nat)} {a : Nat}
    (h : (lookupSeen seen a).isSome) :
    (lookupSeen (new ++ seen) a).isSome := by
  rw [lookupSeen_append]
  cases hn : lookupSeen new a with
  | none => exact h
  | some q => rfl

theorem valRefSeen_mono {new seen : List (Nat × Nat)} {v : JSValue}
    (h : valRefSeen seen v) : valRefSeen (new ++ seen) v :=
  fun a ha => lookupSeen_isSome_mono (h a ha)

theorem contRefsSeen_mono {new seen : List (Nat × Nat)} {c : Container}
    (h : contRefsSeen seen c) : contRefsSeen (new ++ seen) c := by
  cases c with
  | arr items => exact fun v hv => valRefSeen_mono (h v hv)
  | obj fields => exact fun f hf => valRefSeen_mono (h f hf)

theorem mapValue_extend {replacer : List Char → List Char}
    {new seen : List (Nat × Nat)} {v : JSValue}
    (hnd : ((new ++ seen).map Prod.fst).Nodup) (hv : valRefSeen seen v) :
    mapValue replacer (new ++ seen) v = mapValue replacer seen v := by
  cases v with
  | str s => rfl
  | scalar => rfl
  | ref a =>
    obtain ⟨o, ho⟩ := Option.isSome_iff_exists.mp (hv a rfl)
    rw [mapValue, mapValue, ho, lookupSeen_extend hnd ho]

theorem mapContainer_extend {replacer : List Char → List Char}
    {new seen : List (Nat × Nat)} {c : Container}
    (hnd : ((new ++ seen).map Prod.fst).Nodup) (hc : contRefsSeen seen c) :
    mapContainer replacer (new ++ seen) c = mapContainer replacer seen c := by
  cases c with
  | arr items =>
    rw [mapContainer, mapContainer]
    congr 1
    exact List.map_congr_left (fun v hv => mapValue_extend hnd (hc v hv))
  | obj fields =>
    rw [mapContainer, mapContainer]
    congr 1
    refine List.map_congr_left (fun f hf => ?_)
    rw [mapValue_extend hnd (hc f hf)]

end EnvInterpolation

namespace EnvInterpolation

/-- `mapContainer` is unchanged by registering one more (fresh) pair. -/
theorem mapContainer_cons_extend {replacer : List Char → List Char}
    {p : Nat × Nat} {seen : List (Nat × Nat)} {c : Container}
    (hnd : ((p :: seen).map Prod.fst).Nodup) (hc : contRefsSeen seen c) :
    mapContainer replacer (p :: seen) c = mapContainer replacer seen c :=
  @mapContainer_extend replacer [p] seen c hnd hc

theorem contRefsSeen_cons_mono {p : Nat × Nat} {seen : List (Nat × Nat)}
    {c : Container} (h : contRefsSeen seen c) : contRefsSeen (p :: seen) c :=
  @contRefsSeen_mono [p] seen c h

/--
The traversal-state invariant, relative to the fixed input heap `inH` and
the chain `pending` of containers currently being copied (registered in
`seen` but whose output content has not yet been written): the input
segment of the heap is untouched; `seen` maps distinct input addresses to
distinct fresh output addresses; and every non-pending `seen` pair is
*finalized* — its output slot holds the image of its input container under
the seen map, with every reference of that container already visited.
-/
structure TInv (replacer : List Char → List Char) (inH : Heap)
    (pending : List (Nat × Nat)) (st : TState) : Prop where
  hlen : inH.length ≤ st.heap.length
  pres : ∀ i, i < inH.length → st.heap[i]? = inH[i]?
  dom : ∀ p ∈ st.seen, p.1 < inH.length
  rng : ∀ p ∈ st.seen, inH.length ≤ p.2 ∧ p.2 < st.heap.length
  keysNodup : (st.seen.map Prod.fst).Nodup
  outsNodup : (st.seen.map Prod.snd).Nodup
  pendSub : ∀ p ∈ pending, p ∈ st.seen
  fin : ∀ p ∈ st.seen, p ∉ pending →
    ∃ c, inH[p.1]? = some c ∧
      st.heap[p.2]? = some (mapContainer replacer st.seen c) ∧
      contRefsSeen st.seen c

/-- How a traversal call may change the state: the heap grows and is
unchanged below the entry length, and `seen` is extended on the left. -/
structure TExt (st st2 : TState) : Prop where
  hle : st.heap.length ≤ st2.heap.length
  hpres : ∀ i, i < st.heap.length → st2.heap[i]? = st.heap[i]?
  sExt : ∃ new, st2.seen = new ++ st.seen

theorem TExt.rfl {st : TState} : TExt st st :=
  ⟨Nat.le_refl _, fun _ _ => Eq.refl _, ⟨[], Eq.refl _⟩⟩

theorem TExt.comp {st1 st2 st3 : TState} (h12 : TExt st1 st2)
    (h23 : TExt st2 st3) : TExt st1 st3 := by
  refine ⟨Nat.le_trans h12.hle h23.hle, ?_, ?_⟩
  · intro i hi
    rw [h23.hpres i (Nat.lt_of_lt_of_le hi h12.hle), h12.hpres i hi]
  · obtain ⟨n1, h1⟩ := h12.sExt
    obtain ⟨n2, h2⟩ := h23.sExt
    exact ⟨n2 ++ n1, by rw [h2, h1, List.append_assoc]⟩

/-- `seen` extension preserves its length bound. -/
theorem TExt.seen_le {st st2 : TState} (h : TExt st st2) :
    st.seen.length ≤ st2.seen.length := by
  obtain ⟨new, hnew⟩ := h.sExt
  rw [hnew, List.length_append]
  omega

/-- A seen map with distinct keys below `n`, missing the key `a < n`, has
fewer than `n` entries. -/
theorem seen_length_lt {seen : List (Nat × Nat)} {n a : Nat}
    (hdom : ∀ p ∈ seen, p.1 < n) (hnd : (seen.map Prod.fst).Nodup)
    (ha : a < n) (hnot : a ∉ seen.map Prod.fst) :
    seen.length < n := by
  have hnd2 : (a :: seen.map Prod.fst).Nodup := List.nodup_cons.mpr ⟨hnot, hnd⟩
  have hsub : (a :: seen.map Prod.fst) ⊆ List.range n := by
    intro x hx
    rw [List.mem_range]
    rcases List.mem_cons.mp hx with h1 | h1
    · omega
    · obtain ⟨p, hp, hfst⟩ := List.mem_map.mp h1
      have := hdom p hp
      omega
  have := (List.subperm_of_subset hnd2 hsub).length_le
  simp only [List.length_cons, List.length_map, List.length_range] at this
  omega

end EnvInterpolation

namespace EnvInterpolation

/-- The postcondition of one traversal call on a value. -/
def TPost (replacer : List Char → List Char) (inH : Heap)
    (pending : List (Nat × Nat)) (v : JSValue) (st st2 : TState)
    (v2 : JSValue) : Prop :=
  TInv replacer inH pending st2 ∧ TExt st st2 ∧
  v2 = mapValue replacer st2.seen v ∧ valRefSeen st2.seen v

/-- The specification assumed of the recursive call handed to
`traverseChildren`/`traverseFields`. -/
def RecSpec (replacer : List Char → List Char) (inH : Heap)
    (pending : List (Nat × Nat)) (fuel : Nat)
    (rec : JSValue → TState → Option (JSValue × TState)) : Prop :=
  ∀ v st, TInv replacer inH pending st → valRefOk inH.length v →
    inH.length - st.seen.length < fuel →
    ∃ out, rec v st = some out ∧
      TPost replacer inH pending v st out.2 out.1

theorem traverseChildren_master {replacer : List Char → List Char}
    {inH : Heap} {pending : List (Nat × Nat)} {fuel : Nat}
    {rec : JSValue → TState → Option (JSValue × TState)}
    (hrec : RecSpec replacer inH pending fuel rec) :
    ∀ (items : List JSValue) (st : TState),
    TInv replacer inH pending st →
    (∀ v ∈ items, valRefOk inH.length v) →
    inH.length - st.seen.length < fuel →
    ∃ out, traverseChildren rec items st = some out ∧
      TInv replacer inH pending out.2 ∧ TExt st out.2 ∧
      out.1 = items.map (mapValue replacer out.2.seen) ∧
      (∀ v ∈ items, valRefSeen out.2.seen v) := by
  intro items
  induction items with
  | nil =>
    intro st hinv _ _
    exact ⟨([], st), rfl, hinv, TExt.rfl, rfl, by intro v hv; cases hv⟩
  | cons v rest ih =>
    intro st hinv hok hb
    obtain ⟨out1, hstep, hpost1⟩ :=
      hrec v st hinv (hok v (List.mem_cons_self _ _)) hb
    obtain ⟨v2, stA⟩ := out1
    obtain ⟨hinvA, hextA, hv2, hvseen⟩ := hpost1
    dsimp only at hstep hinvA hextA hv2 hvseen
    have hbA : inH.length - stA.seen.length < fuel := by
      have := hextA.seen_le
      omega
    obtain ⟨out2, hsteps, hinvB, hextB, hvs, hrseen⟩ :=
      ih stA hinvA (fun x hx => hok x (List.mem_cons_of_mem _ hx)) hbA
    obtain ⟨vs, stB⟩ := out2
    dsimp only at hsteps hinvB hextB hvs hrseen
    refine ⟨(v2 :: vs, stB), ?_, hinvB, hextA.comp hextB, ?_, ?_⟩
    · rw [traverseChildren, hstep]
      dsimp only
      rw [hsteps]
    · show v2 :: vs = List.map (mapValue replacer stB.seen) (v :: rest)
      rw [List.map_cons, ← hvs]
      obtain ⟨new, hnew⟩ := hextB.sExt
      rw [hv2, hnew]
      rw [mapValue_extend (by rw [← hnew]; exact hinvB.keysNodup) hvseen]
    · show ∀ x ∈ v :: rest, valRefSeen stB.seen x
      intro x hx
      rcases List.mem_cons.mp hx with h1 | h1
      · subst h1
        obtain ⟨new, hnew⟩ := hextB.sExt
        rw [hnew]
        exact valRefSeen_mono hvseen
      · exact hrseen x h1

theorem traverseFields_master {replacer : List Char → List Char}
    {inH : Heap} {pending : List (Nat × Nat)} {fuel : Nat}
    {rec : JSValue → TState → Option (JSValue × TState)}
    (hrec : RecSpec replacer inH pending fuel rec) :
    ∀ (fields : List (List Char × JSValue)) (st : TState),
    TInv replacer inH pending st →
    (∀ f ∈ fields, valRefOk inH.length f.2) →
    inH.length - st.seen.length < fuel →
    ∃ out, traverseFields rec fields st = some out ∧
      TInv replacer inH pending out.2 ∧ TExt st out.2 ∧
      out.1 = fields.map (fun f => (f.1, mapValue replacer out.2.seen f.2)) ∧
      (∀ f ∈ fields, valRefSeen out.2.seen f.2) := by
  intro fields
  induction fields with
  | nil =>
    intro st hinv _ _
    exact ⟨([], st), rfl, hinv, TExt.rfl, rfl, by intro f hf; cases hf⟩
  | cons f rest ih =>
    intro st hinv hok hb
    obtain ⟨out1, hstep, hpost1⟩ :=
      hrec f.2 st hinv (hok f (List.mem_cons_self _ _)) hb
    obtain ⟨v2, stA⟩ := out1
    obtain ⟨hinvA, hextA, hv2, hvseen⟩ := hpost1
    dsimp only at hstep hinvA hextA hv2 hvseen
    have hbA : inH.length - stA.seen.length < fuel := by
      have := hextA.seen_le
      omega
    obtain ⟨out2, hsteps, hinvB, hextB, hfs, hrseen⟩ :=
      ih stA hinvA (fun x hx => hok x (List.mem_cons_of_mem _ hx)) hbA
    obtain ⟨fs, stB⟩ := out2
    dsimp only at hsteps hinvB hextB hfs hrseen
    refine ⟨((f.1, v2) :: fs, stB), ?_, hinvB, hextA.comp hextB, ?_, ?_⟩
    · rw [traverseFields, hstep]
      dsimp only
      rw [hsteps]
    · show (f.1, v2) :: fs =
        List.map (fun g => (g.1, mapValue replacer stB.seen g.2)) (f :: rest)
      rw [List.map_cons, ← hfs]
      obtain ⟨new, hnew⟩ := hextB.sExt
      rw [hv2, hnew]
      rw [mapValue_extend (by rw [← hnew]; exact hinvB.keysNodup) hvseen]
    · show ∀ x ∈ f :: rest, valRefSeen stB.seen x.2
      intro x hx
      rcases List.mem_cons.mp hx with h1 | h1
      · subst h1
        obtain ⟨new, hnew⟩ := hextB.sExt
        rw [hnew]
        exact valRefSeen_mono hvseen
      · exact hrseen x h1

end EnvInterpolation

namespace EnvInterpolation

/--
Graph-copy correctness and termination of the traverser, by induction on
the fuel: under the state invariant, with enough fuel for the remaining
unvisited input containers, a traversal call succeeds, extends the state,
maps its value along the seen map, and re-establishes the invariant.
-/
theorem traverseFuel_master (replacer : List Char → List Char) (inH : Heap)
    (hclosed : heapClosed inH) :
    ∀ (fuel : Nat) (pending : List (Nat × Nat)),
      RecSpec replacer inH pending fuel (traverseFuel replacer fuel) := by
  intro fuel
  induction fuel with
  | zero =>
    intro pending v st _ _ hb
    omega
  | succ f ihf =>
    intro pending v st hinv hok hb
    cases v with
    | str s =>
      exact ⟨(.str (replacer s), st), rfl, hinv, TExt.rfl, rfl,
        fun a ha => by cases ha⟩
    | scalar =>
      exact ⟨(.scalar, st), rfl, hinv, TExt.rfl, rfl,
        fun a ha => by cases ha⟩
    | ref a =>
      have ha : a < inH.length := hok
      cases hseen : lookupSeen st.seen a with
      | some o =>
        refine ⟨(.ref o, st), ?_, hinv, TExt.rfl, ?_, ?_⟩
        · rw [traverseFuel, traverseStep, hseen]
        · rw [mapValue, hseen]
        · intro x hx
          cases hx
          rw [hseen]
          rfl
      | none =>
        have hget : st.heap[a]? = inH[a]? := hinv.pres a ha
        obtain ⟨c, hc⟩ : ∃ c, inH[a]? = some c := by
          cases hcc : inH[a]? with
          | none =>
            rw [List.getElem?_eq_none_iff] at hcc
            omega
          | some c => exact ⟨c, rfl⟩
        have hcok : contOk inH.length c := hclosed c (List.getElem?_mem hc)
        have haNotMem : a ∉ st.seen.map Prod.fst :=
          lookupSeen_none_not_mem hseen
        have hseenlt : st.seen.length < inH.length :=
          seen_length_lt hinv.dom hinv.keysNodup ha haNotMem
        cases c with
        | arr items =>
          have hitems : ∀ x ∈ items, valRefOk inH.length x := hcok
          have hinv1 : TInv replacer inH ((a, st.heap.length) :: pending)
              ⟨st.heap ++ [Container.arr []],
                (a, st.heap.length) :: st.seen⟩ := by
            have hlen := hinv.hlen
            refine ⟨?_, ?_, ?_, ?_, ?_, ?_, ?_, ?_⟩
            · simp only [List.length_append, List.length_singleton]
              omega
            · intro i hi
              show (st.heap ++ [Container.arr []])[i]? = _
              rw [List.getElem?_append_left (by omega)]
              exact hinv.pres i hi
            · intro p hp
              rcases List.mem_cons.mp hp with h1 | h1
              · rw [h1]; exact ha
              · exact hinv.dom p h1
            · intro p hp
              show _ ∧ p.2 < (st.heap ++ [Container.arr []]).length
              simp only [List.length_append, List.length_singleton]
              rcases List.mem_cons.mp hp with h1 | h1
              · rw [h1]
                exact ⟨hlen, by omega⟩
              · have := hinv.rng p h1
                exact ⟨this.1, by omega⟩
            · rw [List.map_cons]
              exact List.nodup_cons.mpr ⟨haNotMem, hinv.keysNodup⟩
            · rw [List.map_cons]
              refine List.nodup_cons.mpr ⟨?_, hinv.outsNodup⟩
              intro hmem
              obtain ⟨p, hp, hsnd⟩ := List.mem_map.mp hmem
              have := (hinv.rng p hp).2
              omega
            · intro p hp
              rcases List.mem_cons.mp hp with h1 | h1
              · rw [h1]; exact List.mem_cons_self _ _
              · exact List.mem_cons_of_mem _ (hinv.pendSub p h1)
            · intro p hp hpnot
              have hp1 : p ∈ st.seen := by
                rcases List.mem_cons.mp hp with h1 | h1
                · exact absurd (h1 ▸ List.mem_cons_self _ _) hpnot
                · exact h1
              have hpnotpend : p ∉ pending :=
                fun hcn => hpnot (List.mem_cons_of_mem _ hcn)
              obtain ⟨cp, hcp1, hcp2, hcp3⟩ := hinv.fin p hp1 hpnotpend
              refine ⟨cp, hcp1, ?_, ?_⟩
              · show (st.heap ++ [Container.arr []])[p.2]? = _
                rw [List.getElem?_append_left ((hinv.rng p hp1).2), hcp2]
                congr 1
                exact (mapContainer_cons_extend
                  (List.nodup_cons.mpr ⟨haNotMem, hinv.keysNodup⟩)
                  hcp3).symm
              · exact contRefsSeen_cons_mono hcp3
          have hb1 : inH.length -
              ((a, st.heap.length) :: st.seen).length < f := by
            simp only [List.length_cons]
            omega
          obtain ⟨out2, hch, hinv2, hext2, houts, hrefs⟩ :=
            traverseChildren_master (ihf ((a, st.heap.length) :: pending))
              items ⟨st.heap ++ [Container.arr []],
                (a, st.heap.length) :: st.seen⟩ hinv1 hitems hb1
          obtain ⟨outs, st2⟩ := out2
          dsimp only at hch hinv2 hext2 houts hrefs
          have haLmem : (a, st.heap.length) ∈ st2.seen :=
            hinv2.pendSub _ (List.mem_cons_self _ _)
          have hlook2 : lookupSeen st2.seen a = some st.heap.length :=
            lookupSeen_eq_of_mem_nodup hinv2.keysNodup haLmem
          have hLlt2 : st.heap.length < st2.heap.length :=
            (hinv2.rng _ haLmem).2
          have hLge : inH.length ≤ st.heap.length := hinv.hlen
          refine ⟨(.ref st.heap.length,
            ⟨st2.heap.set st.heap.length (Container.arr outs), st2.seen⟩),
            ?_, ?_, ?_, ?_, ?_⟩
          · rw [traverseFuel, traverseStep, hseen]
            dsimp only
            rw [hget, hc]
            dsimp only
            rw [hch]
          · refine ⟨?_, ?_, ?_, ?_, ?_, ?_, ?_, ?_⟩
            · show inH.length ≤ (st2.heap.set _ _).length
              rw [List.length_set]
              exact hinv2.hlen
            · intro i hi
              show (st2.heap.set _ _)[i]? = _
              rw [List.getElem?_set_ne (by omega : st.heap.length ≠ i)]
              exact hinv2.pres i hi
            · exact hinv2.dom
            · intro p hp
              show _ ≤ p.2 ∧ p.2 < (st2.heap.set _ _).length
              rw [List.length_set]
              exact hinv2.rng p hp
            · exact hinv2.keysNodup
            · exact hinv2.outsNodup
            · intro p hp
              exact hinv2.pendSub p (List.mem_cons_of_mem _ hp)
            · intro p hp hpnot
              by_cases hpa : p = (a, st.heap.length)
              · refine ⟨Container.arr items, ?_, ?_, ?_⟩
                · rw [hpa]
                  exact hc
                · show (st2.heap.set _ _)[p.2]? = _
                  rw [hpa]
                  dsimp only
                  rw [List.getElem?_set_self hLlt2]
                  rw [houts]
                  rfl
                · show contRefsSeen st2.seen (Container.arr items)
                  exact hrefs
              · have hpin : p ∉ (a, st.heap.length) :: pending := by
                  intro hcn
                  rcases List.mem_cons.mp hcn with h1 | h1
                  · exact hpa h1
                  · exact hpnot h1
                obtain ⟨cp, h1, h2, h3⟩ := hinv2.fin p hp hpin
                refine ⟨cp, h1, ?_, h3⟩
                have hpne : st.heap.length ≠ p.2 := by
                  intro heq
                  exact hpa (List.inj_on_of_nodup_map hinv2.outsNodup hp
                    haLmem heq.symm)
                show (st2.heap.set _ _)[p.2]? = _
                rw [List.getElem?_set_ne hpne]
                exact h2
          · obtain ⟨new2, hnew2⟩ := hext2.sExt
            refine ⟨?_, ?_, ?_⟩
            · show st.heap.length ≤ (st2.heap.set _ _).length
              rw [List.length_set]
              omega
            · intro i hi
              show (st2.heap.set _ _)[i]? = _
              rw [List.getElem?_set_ne (by omega : st.heap.length ≠ i)]
              rw [hext2.hpres i (by
                simp only [List.length_append, List.length_singleton]
                omega)]
              show (st.heap ++ [Container.arr []])[i]? = _
              rw [List.getElem?_append_left hi]
            · refine ⟨new2 ++ [(a, st.heap.length)], ?_⟩
              show st2.seen = _
              rw [hnew2, List.append_assoc, List.singleton_append]
          · show JSValue.ref st.heap.length =
              mapValue replacer st2.seen (.ref a)
            rw [mapValue, hlook2]
          · intro x hx
            cases hx
            show (lookupSeen st2.seen a).isSome
            rw [hlook2]
            rfl
        | obj fields =>
          have hfieldsOk : ∀ g ∈ fields, valRefOk inH.length g.2 := hcok
          have hinv1 : TInv replacer inH ((a, st.heap.length) :: pending)
              ⟨st.heap ++ [Container.obj []],
                (a, st.heap.length) :: st.seen⟩ := by
            have hlen := hinv.hlen
            refine ⟨?_, ?_, ?_, ?_, ?_, ?_, ?_, ?_⟩
            · simp only [List.length_append, List.length_singleton]
              omega
            · intro i hi
              show (st.heap ++ [Container.obj []])[i]? = _
              rw [List.getElem?_append_left (by omega)]
              exact hinv.pres i hi
            · intro p hp
              rcases List.mem_cons.mp hp with h1 | h1
              · rw [h1]; exact ha
              · exact hinv.dom p h1
            · intro p hp
              show _ ∧ p.2 < (st.heap ++ [Container.obj []]).length
              simp only [List.length_append, List.length_singleton]
              rcases List.mem_cons.mp hp with h1 | h1
              · rw [h1]
                exact ⟨hlen, by omega⟩
              · have := hinv.rng p h1
                exact ⟨this.1, by omega⟩
            · rw [List.map_cons]
              exact List.nodup_cons.mpr ⟨haNotMem, hinv.keysNodup⟩
            · rw [List.map_cons]
              refine List.nodup_cons.mpr ⟨?_, hinv.outsNodup⟩
              intro hmem
              obtain ⟨p, hp, hsnd⟩ := List.mem_map.mp hmem
              have := (hinv.rng p hp).2
              omega
            · intro p hp
              rcases List.mem_cons.mp hp with h1 | h1
              · rw [h1]; exact List.mem_cons_self _ _
              · exact List.mem_cons_of_mem _ (hinv.pendSub p h1)
            · intro p hp hpnot
              have hp1 : p ∈ st.seen := by
                rcases List.mem_cons.mp hp with h1 | h1
                · exact absurd (h1 ▸ List.mem_cons_self _ _) hpnot
                · exact h1
              have hpnotpend : p ∉ pending :=
                fun hcn => hpnot (List.mem_cons_of_mem _ hcn)
              obtain ⟨cp, hcp1, hcp2, hcp3⟩ := hinv.fin p hp1 hpnotpend
              refine ⟨cp, hcp1, ?_, ?_⟩
              · show (st.heap ++ [Container.obj []])[p.2]? = _
                rw [List.getElem?_append_left ((hinv.rng p hp1).2), hcp2]
                congr 1
                exact (mapContainer_cons_extend
                  (List.nodup_cons.mpr ⟨haNotMem, hinv.keysNodup⟩)
                  hcp3).symm
              · exact contRefsSeen_cons_mono hcp3
          have hb1 : inH.length -
              ((a, st.heap.length) :: st.seen).length < f := by
            simp only [List.length_cons]
            omega
          obtain ⟨out2, hch, hinv2, hext2, houts, hrefs⟩ :=
            traverseFields_master (ihf ((a, st.heap.length) :: pending))
              fields ⟨st.heap ++ [Container.obj []],
                (a, st.heap.length) :: st.seen⟩ hinv1 hfieldsOk hb1
          obtain ⟨outs, st2⟩ := out2
          dsimp only at hch hinv2 hext2 houts hrefs
          have haLmem : (a, st.heap.length) ∈ st2.seen :=
            hinv2.pendSub _ (List.mem_cons_self _ _)
          have hlook2 : lookupSeen st2.seen a = some st.heap.length :=
            lookupSeen_eq_of_mem_nodup hinv2.keysNodup haLmem
          have hLlt2 : st.heap.length < st2.heap.length :=
            (hinv2.rng _ haLmem).2
          have hLge : inH.length ≤ st.heap.length := hinv.hlen
          refine ⟨(.ref st.heap.length,
            ⟨st2.heap.set st.heap.length (Container.obj outs), st2.seen⟩),
            ?_, ?_, ?_, ?_, ?_⟩
          · rw [traverseFuel, traverseStep, hseen]
            dsimp only
            rw [hget, hc]
            dsimp only
            rw [hch]
          · refine ⟨?_, ?_, ?_, ?_, ?_, ?_, ?_, ?_⟩
            · show inH.length ≤ (st2.heap.set _ _).length
              rw [List.length_set]
              exact hinv2.hlen
            · intro i hi
              show (st2.heap.set _ _)[i]? = _
              rw [List.getElem?_set_ne (by omega : st.heap.length ≠ i)]
              exact hinv2.pres i hi
            · exact hinv2.dom
            · intro p hp
              show _ ≤ p.2 ∧ p.2 < (st2.heap.set _ _).length
              rw [List.length_set]
              exact hinv2.rng p hp
            · exact hinv2.keysNodup
            · exact hinv2.outsNodup
            · intro p hp
              exact hinv2.pendSub p (List.mem_cons_of_mem _ hp)
            · intro p hp hpnot
              by_cases hpa : p = (a, st.heap.length)
              · refine ⟨Container.obj fields, ?_, ?_, ?_⟩
                · rw [hpa]
                  exact hc
                · show (st2.heap.set _ _)[p.2]? = _
                  rw [hpa]
                  dsimp only
                  rw [List.getElem?_set_self hLlt2]
                  rw [houts]
                  rfl
                · show contRefsSeen st2.seen (Container.obj fields)
                  exact hrefs
              · have hpin : p ∉ (a, st.heap.length) :: pending := by
                  intro hcn
                  rcases List.mem_cons.mp hcn with h1 | h1
                  · exact hpa h1
                  · exact hpnot h1
                obtain ⟨cp, h1, h2, h3⟩ := hinv2.fin p hp hpin
                refine ⟨cp, h1, ?_, h3⟩
                have hpne : st.heap.length ≠ p.2 := by
                  intro heq
                  exact hpa (List.inj_on_of_nodup_map hinv2.outsNodup hp
                    haLmem heq.symm)
                show (st2.heap.set _ _)[p.2]? = _
                rw [List.getElem?_set_ne hpne]
                exact h2
          · obtain ⟨new2, hnew2⟩ := hext2.sExt
            refine ⟨?_, ?_, ?_⟩
            · show st.heap.length ≤ (st2.heap.set _ _).length
              rw [List.length_set]
              omega
            · intro i hi
              show (st2.heap.set _ _)[i]? = _
              rw [List.getElem?_set_ne (by omega : st.heap.length ≠ i)]
              rw [hext2.hpres i (by
                simp only [List.length_append, List.length_singleton]
                omega)]
              show (st.heap ++ [Container.obj []])[i]? = _
              rw [List.getElem?_append_left hi]
            · refine ⟨new2 ++ [(a, st.heap.length)], ?_⟩
              show st2.seen = _
              rw [hnew2, List.append_assoc, List.singleton_append]
          · show JSValue.ref st.heap.length =
              mapValue replacer st2.seen (.ref a)
            rw [mapValue, hlook2]
          · intro x hx
            cases hx
            show (lookupSeen st2.seen a).isSome
            rw [hlook2]
            rfl

end EnvInterpolation

namespace EnvInterpolation

/-- The initial state of an `interpolate` call satisfies the invariant. -/
theorem TInv_init (replacer : List Char → List Char) (heap : Heap) :
    TInv replacer heap [] ⟨heap, []⟩ :=
  ⟨Nat.le_refl _, fun _ _ => rfl, fun _ hp => absurd hp (List.not_mem_nil _),
    fun _ hp => absurd hp (List.not_mem_nil _), List.nodup_nil,
    List.nodup_nil, fun _ hp => absurd hp (List.not_mem_nil _),
    fun _ hp => absurd hp (List.not_mem_nil _)⟩

/--
C8: for every well-formed input, `interpolate` returns a fresh structure of
identical shape sharing no container identity with the input: the input
segment of the heap is never mutated; every visited input container is
paired with an output container allocated strictly beyond the input segment
(so mutating the output cannot affect the input); the returned value and
each copied container are the image of their input under the seen map
(strings substituted, scalars unchanged, references renamed to the fresh
copies); and a non-string scalar leaf is returned unchanged.
-/
theorem C8_fresh_identical_copy :
    ∀ (heap : Heap) (content : JSValue) (vars : Vars) (escape : Bool)
      (maxPasses : Nat) (out : JSValue × TState),
      heapClosed heap → valRefOk heap.length content →
      interpolate content heap vars escape maxPasses = some out →
      (∀ i, i < heap.length → out.2.heap[i]? = heap[i]?) ∧
      (∀ p ∈ out.2.seen, p.1 < heap.length ∧ heap.length ≤ p.2) ∧
      (∀ a, content = .ref a → ∃ o, out.1 = .ref o ∧ heap.length ≤ o) ∧
      out.1 = mapValue (fun s => replace s vars escape maxPasses)
        out.2.seen content ∧
      (∀ p ∈ out.2.seen, ∃ c, heap[p.1]? = some c ∧
        out.2.heap[p.2]? = some (mapContainer
          (fun s => replace s vars escape maxPasses) out.2.seen c)) ∧
      (content = .scalar → out.1 = .scalar) := by
  intro heap content vars escape maxPasses out hclosed hok hrun
  obtain ⟨out2, hrun2, hinvF, hextF, hmap, hvseen⟩ :=
    traverseFuel_master (fun s => replace s vars escape maxPasses) heap
      hclosed (heap.length + 1) [] content ⟨heap, []⟩
      (TInv_init _ heap) hok (by simp)
  rw [interpolate, hrun2] at hrun
  cases hrun
  refine ⟨hinvF.pres, ?_, ?_, hmap, ?_, ?_⟩
  · intro p hp
    exact ⟨hinvF.dom p hp, (hinvF.rng p hp).1⟩
  · intro a hcontent
    subst hcontent
    obtain ⟨o, ho⟩ := Option.isSome_iff_exists.mp (hvseen a rfl)
    refine ⟨o, ?_, ?_⟩
    · rw [hmap, mapValue, ho]
    · exact (hinvF.rng (a, o) (lookupSeen_mem ho)).1
  · intro p hp
    obtain ⟨c, h1, h2, _⟩ := hinvF.fin p hp (List.not_mem_nil _)
    exact ⟨c, h1, h2⟩
  · intro hcontent
    subst hcontent
    rw [hmap]
    rfl

/-- A one-container heap whose array holds a string, a scalar, and a
self-reference. -/
def heapSelf : Heap :=
  [Container.arr [JSValue.str (String.data "hi"), JSValue.scalar,
    JSValue.ref 0]]

theorem heapSelf_closed : heapClosed heapSelf := by
  intro c hc
  rw [heapSelf, List.mem_singleton] at hc
  subst hc
  intro v hv
  simp only [List.mem_cons, List.mem_singleton, List.not_mem_nil,
    or_false] at hv
  rcases hv with h | h | h <;> subst h
  · exact trivial
  · exact trivial
  · exact Nat.zero_lt_one

/-- The state produced by copying `heapSelf` from its self-reference. -/
def heapSelfOut : TState :=
  ⟨[Container.arr [JSValue.str (String.data "hi"), JSValue.scalar,
      JSValue.ref 0],
    Container.arr [JSValue.str (String.data "hi"), JSValue.scalar,
      JSValue.ref 1]], [(0, 1)]⟩

/-- Witness for C8 at a concrete self-referential array: the input entry is
untouched after the copy. -/
theorem C8_fresh_identical_copy_witness :
    heapClosed heapSelf ∧
    interpolate (.ref 0) heapSelf emptyVars true 10 =
      some (.ref 1, heapSelfOut) ∧
    (∀ i, i < heapSelf.length → heapSelfOut.heap[i]? = heapSelf[i]?) :=
  ⟨heapSelf_closed, by decide,
    (C8_fresh_identical_copy heapSelf (.ref 0) emptyVars true 10
      (.ref 1, heapSelfOut) heapSelf_closed Nat.zero_lt_one (by decide)).1⟩

/--
C9: traversal terminates on every finite object graph, including graphs
with a container reachable from itself: an already-visited container is
mapped by identity to its already-constructed output (revisiting returns
the same output reference without recursing), and a self-referential array
is copied in bounded time to an output array that holds a reference to
itself — the same identity pattern as the input.
-/
theorem C9_cycle_safe_termination :
    (∀ (heap : Heap) (content : JSValue) (vars : Vars) (escape : Bool)
        (maxPasses : Nat),
      heapClosed heap → valRefOk heap.length content →
      (interpolate content heap vars escape maxPasses).isSome) ∧
    (∀ (replacer : List Char → List Char) (fuel a o : Nat) (st : TState),
      lookupSeen st.seen a = some o →
      traverseFuel replacer (fuel + 1) (.ref a) st = some (.ref o, st)) ∧
    (∀ (vars : Vars) (escape : Bool) (maxPasses : Nat),
      interpolate (.ref 0) [Container.arr [JSValue.ref 0]] vars escape
          maxPasses =
        some (.ref 1, ⟨[Container.arr [JSValue.ref 0],
          Container.arr [JSValue.ref 1]], [(0, 1)]⟩)) := by
  refine ⟨?_, ?_, ?_⟩
  · intro heap content vars escape maxPasses hclosed hok
    obtain ⟨out2, hrun2, _⟩ :=
      traverseFuel_master (fun s => replace s vars escape maxPasses) heap
        hclosed (heap.length + 1) [] content ⟨heap, []⟩
        (TInv_init _ heap) hok (by simp)
    rw [interpolate, hrun2]
    rfl
  · intro replacer fuel a o st h
    rw [traverseFuel, traverseStep, h]
  · intro vars escape maxPasses
    rfl

/-- Witness for C9 at the self-referential one-container heap. -/
theorem C9_cycle_safe_termination_witness :
    heapClosed heapSelf ∧
    (interpolate (.ref 0) heapSelf emptyVars true 10).isSome :=
  ⟨heapSelf_closed,
    C9_cycle_safe_termination.1 heapSelf (.ref 0) emptyVars true 10
      heapSelf_closed Nat.zero_lt_one⟩

end EnvInterpolation
